import Mathlib

/-!
Verification development for the M/M/1 event-driven queue simulator
(`mm1.py`).  The simulation engine is embedded shallowly:

* Event types are the strings `'INIT'`, `'a'`, `'d'` of the source,
  embedded as the inductive type `Ev`.
* Lifetimes and simulated times are ideal numbers; the source computes
  with floats, which we model by `ℚ` (an executable ordered field).
* The random source (`np.random.rand()` composed with the inverse-CDF
  transform of `newLifetime`, mm1.py line 48) is abstracted as a stream
  `gen : ℕ → ℚ` of per-call drawn lifetimes, consumed in order: one value
  for every clock the engine creates.  The real-number inverse-CDF formula
  `-1/r * log (1 - U)` itself appears (over `ℝ`) in the theorem about
  lifetime non-negativity.
* `EVENTHEAP` (mm1.py line 41) is a Python `heapq` of `(lifetime, event)`
  tuples.  After every reconciliation it holds at most two clocks, so
  every `heappop` returns exactly the lexicographically least tuple and
  the list order never influences an observable; we embed the heap as
  the list of its elements together with `popMin`, which removes the
  least tuple (ties on the lifetime are broken by the ASCII order of the
  event strings, `'INIT' < 'a' < 'd'`, exactly as Python tuple
  comparison does).
* The global mutable state of the script (QUEUE, EVENTHEAP, times,
  queues, arrivals, departures, departureCount, arrivalCountArray and the
  position of the random stream) is gathered into the structure
  `SimState`; each loop iteration of `runSimulation` (mm1.py lines
  99-114) is the function `simStep`.
-/

/-- Event alphabet of the simulator: the strings `'INIT'`, `'a'` and `'d'`
of `mm1.py`. -/
inductive Ev
  | INIT
  | a
  | d
deriving DecidableEq

/-- ASCII rank of the event strings, used by Python tuple comparison when
two heap entries have equal lifetimes: `'INIT' < 'a' < 'd'`. -/
def evRank : Ev → ℕ
  | Ev.INIT => 0
  | Ev.a => 1
  | Ev.d => 2

/-- A pending clock: a `(remaining lifetime, event type)` pair, as stored
in `EVENTHEAP` (mm1.py line 41). -/
abbrev Clock := ℚ × Ev

/-- Lexicographic comparison of heap tuples, as Python compares
`(lifetime, event-string)` pairs. -/
def clockLE (c1 c2 : Clock) : Bool :=
  decide (c1.1 < c2.1) || (decide (c1.1 = c2.1) && decide (evRank c1.2 ≤ evRank c2.2))

/-- The `heapq.heappop` of the source (mm1.py line 100): remove the least
`(lifetime, event)` tuple from the pending set; `none` on an empty heap
(where the source would raise `IndexError`). -/
def popMin : List Clock → Option (Clock × List Clock)
  | [] => none
  | c :: rest =>
    match popMin rest with
    | none => some (c, [])
    | some (m, others) =>
      if clockLE c m then some (c, m :: others) else some (m, c :: others)

/-- Full state of the simulator: the module-level globals of `mm1.py`
together with the local accumulators of `runSimulation` and the read
position of the random stream. -/
structure SimState where
  queue : ℤ
  heap : List Clock
  times : List ℚ
  queues : List ℤ
  arrivals : List ℚ
  departures : List ℚ
  departureCount : ℕ
  arrivalCountArray : List ℕ
  drawIdx : ℕ

/-- Initial state: `QUEUE = 0`, `EVENTHEAP = [(0, 'INIT')]`
(mm1.py lines 40-44) and the empty accumulators of `runSimulation`
(`arrivalCountArray = [0]`, mm1.py line 98). -/
def initState : SimState :=
  { queue := 0
    heap := [(0, Ev.INIT)]
    times := []
    queues := []
    arrivals := []
    departures := []
    departureCount := 0
    arrivalCountArray := [0]
    drawIdx := 0 }

/-- The per-queue-length infeasible table `infeasibleEvents`
(mm1.py line 37): `{'all': ['INIT'], 0: ['d']}`.  This is the
length-keyed part; absent keys default to `[]` via the
`try/except` block of `updateFeasibleEvents`. -/
def infeasibleAt (q : ℤ) : List Ev := if q = 0 then [Ev.d] else []

/-- The `'all'` entry of `infeasibleEvents` (mm1.py line 37). -/
def infeasibleAll : List Ev := [Ev.INIT]

/-- The `'all'` entry of `feasibleEvents` (mm1.py line 38): `['a', 'd']`. -/
def feasibleAll : List Ev := [Ev.a, Ev.d]

/-- The per-queue-length part of `feasibleEvents` (mm1.py line 38): the
table has no length-specific keys, and absent keys default to `[]`. -/
def feasibleAt (_ : ℤ) : List Ev := []

/-- Event component of a heap. -/
def events (l : List Clock) : List Ev := l.map Prod.snd

/-- The set of event types for which `updateFeasibleEvents` draws a fresh
clock (mm1.py line 79):
`((feasibleEvents[QUEUE] ∪ feasibleEvents['all']) - residualEvents)
 - (infeasibleEvents[QUEUE] ∪ infeasibleEvents['all'])`,
iterated in the fixed order `a` before `d` (Python iterates a set in an
unspecified but fixed order; no observable of the claims depends on it). -/
def toDraw (q : ℤ) (residual : List Ev) : List Ev :=
  ((feasibleAt q ++ feasibleAll).dedup).filter fun e =>
    decide (e ∉ residual) && decide (e ∉ infeasibleAt q) && decide (e ∉ infeasibleAll)

/-- Draw one fresh clock per listed event (mm1.py line 80), consuming one
value of the abstracted random stream for each, in order. -/
def drawClocks (gen : ℕ → ℚ) (idx : ℕ) : List Ev → List Clock
  | [] => []
  | e :: es => (gen idx, e) :: drawClocks gen (idx + 1) es

/-- The queue update of `updateState` (mm1.py lines 50-56):
`QUEUE += (event == 'a') - (event == 'd')`, then append the new length to
`queues`. -/
def updateState (m : Clock) (s : SimState) : SimState :=
  let q := s.queue + (if m.2 = Ev.a then 1 else 0) - (if m.2 = Ev.d then 1 else 0)
  { s with queue := q, queues := s.queues ++ [q] }

/-- Line 76 of mm1.py: keep the clocks whose event is not in the
per-length infeasible table and subtract the fired lifetime from each. -/
def shiftSurvivors (outgoing : Clock) (q : ℤ) (heap : List Clock) : List Clock :=
  (heap.filter fun c => decide (c.2 ∉ infeasibleAt q)).map
    fun c => (c.1 - outgoing.1, c.2)

/-- The reconciliation step `updateFeasibleEvents` (mm1.py lines 58-88):
shift every surviving clock down by the fired lifetime and drop clocks
that became infeasible (line 76), draw fresh clocks for feasible events
with no surviving clock (lines 79-80), then append to `times` (and to
`arrivals`/`departures` when `times` was already non-empty,
lines 81-88). -/
def updateFeasibleEvents (gen : ℕ → ℚ) (outgoing : Clock) (s : SimState) : SimState :=
  let heap1 := shiftSurvivors outgoing s.queue s.heap
  let fresh := toDraw s.queue (events heap1)
  let heap2 := heap1 ++ drawClocks gen s.drawIdx fresh
  let di := s.drawIdx + fresh.length
  match s.times with
  | [] => { s with heap := heap2, drawIdx := di, times := [outgoing.1] }
  | _ :: _ =>
    let t := s.times.getLastD 0 + outgoing.1
    if outgoing.2 = Ev.a then
      { s with heap := heap2, drawIdx := di, times := s.times ++ [t],
               arrivals := s.arrivals ++ [t] }
    else
      { s with heap := heap2, drawIdx := di, times := s.times ++ [t],
               departures := s.departures ++ [t] }

/-- The departure / arrival bookkeeping at the top of the loop body
(mm1.py lines 101-105). -/
def applyCounts (m : Clock) (s : SimState) : SimState :=
  if m.2 = Ev.d then
    { s with departureCount := s.departureCount + 1,
             arrivalCountArray := s.arrivalCountArray ++ [0] }
  else if m.2 = Ev.a then
    { s with arrivalCountArray := s.arrivalCountArray ++ [1] }
  else s

/-- One iteration of the `while` loop of `runSimulation`
(mm1.py lines 99-107): pop the minimum clock, update the counters, the
queue length and the pending set.  On an empty heap (unreachable: the
reconciled pending set always contains an arrival clock) the state is
returned unchanged, where the source would raise. -/
def simStep (gen : ℕ → ℚ) (s : SimState) : SimState :=
  match popMin s.heap with
  | none => s
  | some (m, rest) =>
    updateFeasibleEvents gen m (updateState m (applyCounts m { s with heap := rest }))

/-- The state after `k` iterations of the simulation loop. -/
def steps (gen : ℕ → ℚ) : ℕ → SimState
  | 0 => initState
  | Nat.succ k => simStep gen (steps gen k)

/-- Run configuration: the module-level parameters of `mm1.py`
(lines 15-18).  `limitSwitch = true` is departure-count mode,
`false` is elapsed-time mode; `limitValue` is an `int` in both modes
(mm1.py lines 27, 30). -/
structure Config where
  lam : ℚ
  mu : ℚ
  limitSwitch : Bool
  limitValue : ℤ

/-- The argv handling of mm1.py lines 22-30: the four positional values
are stored as given; `LIMIT_SWITCH` is collapsed to `0`/`1`.  No value is
validated — there is no rejection path in the source. -/
def parseArgs (lam mu : ℚ) (sw val : ℤ) : Config :=
  if sw = 0 then
    { lam := lam, mu := mu, limitSwitch := false, limitValue := val }
  else
    { lam := lam, mu := mu, limitSwitch := true, limitValue := val }

/-- Last recorded time, `times[-1]` in the source. -/
def lastT (s : SimState) : ℚ := s.times.getLastD 0

/-- The stopping test at the bottom of the loop body
(mm1.py lines 109-114): `departureCount >= LIMIT_VALUE` in
departure-count mode, `times[-1] >= LIMIT_VALUE` in elapsed-time mode. -/
def stopCond (cfg : Config) (s : SimState) : Bool :=
  if cfg.limitSwitch then decide (cfg.limitValue ≤ (s.departureCount : ℤ))
  else decide ((cfg.limitValue : ℚ) ≤ lastT s)

/-- The run stops after exactly `n` loop iterations: the stopping test
(evaluated after each iteration, starting with the first) fails at every
earlier iteration and succeeds at iteration `n`. -/
def stopsAt (gen : ℕ → ℚ) (cfg : Config) (n : ℕ) : Prop :=
  1 ≤ n ∧ stopCond cfg (steps gen n) = true ∧
    ∀ m, m < n → 1 ≤ m → stopCond cfg (steps gen m) = false

instance (gen : ℕ → ℚ) (cfg : Config) (n : ℕ) : Decidable (stopsAt gen cfg n) := by
  unfold stopsAt
  infer_instance

/-- Adjacent differences, `np.diff` (mm1.py line 119). -/
def diffs : List ℚ → List ℚ
  | [] => []
  | [_] => []
  | t1 :: t2 :: rest => (t2 - t1) :: diffs (t2 :: rest)

/-- The time-weighted area under the queue-length curve as the source
computes it (mm1.py lines 118-120):
`u = np.sum(qarray[:-1] * np.diff(tarray))`. -/
def sumU (ts : List ℚ) (qs : List ℤ) : ℚ :=
  (List.zipWith (fun q dt => (q : ℚ) * dt) qs.dropLast (diffs ts)).sum

/-- The statistics returned by `runSimulation` (mm1.py lines 121-122):
`L = u / tarray[-1]` and `S = u / len(arrivals)`.  The function is total,
as in the source: a zero denominator is not detected (`ℚ` division by
zero yields `0` here; NumPy float division yields `inf`/`nan` with at
most a warning — in neither case an abort). -/
def statsOf (s : SimState) : ℚ × ℚ :=
  let u := sumU s.times s.queues
  (u / lastT s, u / (s.arrivals.length : ℚ))

/-- The specification's formula for the area under the queue-length
curve: `U = Σ_{i=0}^{n-2} q_i * (t_{i+1} - t_i)`, written with explicit
indexing into the recorded sample path. -/
def specU (ts : List ℚ) (qs : List ℤ) : ℚ :=
  ∑ i in Finset.range (ts.length - 1),
    ((qs.getD i 0 : ℤ) : ℚ) * (ts.getD (i + 1) 0 - ts.getD i 0)

/-- Whether the clock popped at loop iteration `i + 1` (if any) has a
strictly positive lifetime. -/
def poppedPos (gen : ℕ → ℚ) (i : ℕ) : Bool :=
  match popMin (steps gen i).heap with
  | none => true
  | some (m, _) => decide (0 < m.1)

/-! ### Basic facts about the heap operations -/

theorem clockLE_fst_le {c m : Clock} (h : clockLE c m = true) : c.1 ≤ m.1 := by
  unfold clockLE at h
  simp only [Bool.or_eq_true, Bool.and_eq_true, decide_eq_true_eq] at h
  rcases h with h | ⟨h, _⟩
  · exact le_of_lt h
  · exact le_of_eq h

theorem clockLE_fst_ge {c m : Clock} (h : clockLE c m = false) : m.1 ≤ c.1 := by
  unfold clockLE at h
  simp only [Bool.or_eq_false_iff, Bool.and_eq_false_iff, decide_eq_false_iff_not] at h
  exact le_of_not_lt h.1

theorem popMin_cons_of_none {c : Clock} {rest : List Clock}
    (hrec : popMin rest = none) : popMin (c :: rest) = some (c, []) := by
  rw [popMin, hrec]

theorem popMin_cons_of_some {c : Clock} {rest : List Clock} {m' : Clock}
    {others : List Clock} (hrec : popMin rest = some (m', others)) :
    popMin (c :: rest) =
      if clockLE c m' then some (c, m' :: others) else some (m', c :: others) := by
  rw [popMin, hrec]

theorem popMin_eq_none {l : List Clock} : popMin l = none ↔ l = [] := by
  cases l with
  | nil => simp [popMin]
  | cons c rest =>
    constructor
    · intro h
      exfalso
      cases hrec : popMin rest with
      | none =>
        rw [popMin_cons_of_none hrec] at h
        exact Option.noConfusion h
      | some p =>
        obtain ⟨m', others⟩ := p
        rw [popMin_cons_of_some hrec] at h
        by_cases hle : clockLE c m' = true
        · rw [if_pos hle] at h
          exact Option.noConfusion h
        · rw [if_neg hle] at h
          exact Option.noConfusion h
    · intro h
      exact absurd h (List.cons_ne_nil c rest)

theorem popMin_perm {l : List Clock} {m : Clock} {r : List Clock}
    (h : popMin l = some (m, r)) : List.Perm (m :: r) l := by
  induction l generalizing m r with
  | nil => simp [popMin] at h
  | cons c rest ih =>
    cases hrec : popMin rest with
    | none =>
      rw [popMin_cons_of_none hrec] at h
      have hr : rest = [] := popMin_eq_none.mp hrec
      simp only [Option.some.injEq, Prod.mk.injEq] at h
      rw [← h.1, ← h.2, hr]
    | some p =>
      obtain ⟨m', others⟩ := p
      rw [popMin_cons_of_some hrec] at h
      by_cases hle : clockLE c m' = true
      · rw [if_pos hle] at h
        simp only [Option.some.injEq, Prod.mk.injEq] at h
        rw [← h.1, ← h.2]
        exact (ih hrec).cons c
      · rw [if_neg hle] at h
        simp only [Option.some.injEq, Prod.mk.injEq] at h
        rw [← h.1, ← h.2]
        exact (List.Perm.swap c m' others).trans ((ih hrec).cons c)

theorem popMin_mem {l : List Clock} {m : Clock} {r : List Clock}
    (h : popMin l = some (m, r)) : m ∈ l :=
  (popMin_perm h).subset (List.mem_cons_self m r)

theorem popMin_min {l : List Clock} {m : Clock} {r : List Clock}
    (h : popMin l = some (m, r)) : ∀ c ∈ l, m.1 ≤ c.1 := by
  induction l generalizing m r with
  | nil => simp [popMin] at h
  | cons c rest ih =>
    cases hrec : popMin rest with
    | none =>
      rw [popMin_cons_of_none hrec] at h
      have hr : rest = [] := popMin_eq_none.mp hrec
      simp only [Option.some.injEq, Prod.mk.injEq] at h
      intro x hx
      rw [hr] at hx
      simp at hx
      rw [← h.1, hx]
    | some p =>
      obtain ⟨m', others⟩ := p
      rw [popMin_cons_of_some hrec] at h
      by_cases hle : clockLE c m' = true
      · rw [if_pos hle] at h
        simp only [Option.some.injEq, Prod.mk.injEq] at h
        intro x hx
        rcases List.mem_cons.mp hx with hx | hx
        · rw [← h.1, hx]
        · rw [← h.1]
          exact le_trans (clockLE_fst_le hle) (ih hrec x hx)
      · rw [if_neg hle] at h
        simp only [Option.some.injEq, Prod.mk.injEq] at h
        intro x hx
        rcases List.mem_cons.mp hx with hx | hx
        · rw [← h.1, hx]
          exact clockLE_fst_ge (Bool.of_not_eq_true hle)
        · rw [← h.1]
          exact ih hrec x hx

theorem popMin_isSome {l : List Clock} (h : l ≠ []) :
    ∃ m r, popMin l = some (m, r) := by
  cases hp : popMin l with
  | none => exact absurd (popMin_eq_none.mp hp) h
  | some p =>
    obtain ⟨m, r⟩ := p
    exact ⟨m, r, rfl⟩

/-! ### Facts about event lists, the feasibility tables and fresh draws -/

theorem events_nil : events [] = [] := rfl

theorem events_cons (c : Clock) (l : List Clock) :
    events (c :: l) = c.2 :: events l := rfl

theorem events_append (l1 l2 : List Clock) :
    events (l1 ++ l2) = events l1 ++ events l2 :=
  List.map_append _ l1 l2

theorem events_drawClocks (gen : ℕ → ℚ) :
    ∀ (es : List Ev) (idx : ℕ), events (drawClocks gen idx es) = es := by
  intro es
  induction es with
  | nil => intro idx; rfl
  | cons e es ih =>
    intro idx
    simp only [drawClocks, events_cons, ih]

theorem mem_drawClocks_fst (gen : ℕ → ℚ) :
    ∀ (es : List Ev) (idx : ℕ) (c : Clock),
      c ∈ drawClocks gen idx es → ∃ j, c.1 = gen j := by
  intro es
  induction es with
  | nil => intro idx c hc; simp [drawClocks] at hc
  | cons e es ih =>
    intro idx c hc
    rcases List.mem_cons.mp hc with hc | hc
    · exact ⟨idx, by rw [hc]⟩
    · exact ih (idx + 1) c hc

theorem mem_infeasibleAt {q : ℤ} {x : Ev} :
    x ∈ infeasibleAt q ↔ q = 0 ∧ x = Ev.d := by
  unfold infeasibleAt
  split <;> simp_all

theorem events_shiftSurvivors (out : Clock) (q : ℤ) (l : List Clock) :
    events (shiftSurvivors out q l) =
      (events l).filter fun e => decide (e ∉ infeasibleAt q) := by
  unfold shiftSurvivors events
  rw [List.map_map, List.filter_map]
  rfl

theorem count_filter_notMem (bad : List Ev) (x : Ev) (l : List Ev) :
    ((l.filter fun e => decide (e ∉ bad)).count x) =
      if x ∈ bad then 0 else l.count x := by
  by_cases hx : x ∈ bad
  · rw [if_pos hx]
    refine List.count_eq_zero.mpr ?_
    intro hmem
    have hpred := (List.mem_filter.mp hmem).2
    simp only [decide_eq_true_eq] at hpred
    exact hpred hx
  · rw [if_neg hx]
    exact List.count_filter (by simpa using hx)

theorem count_eq_ite_of_nodup {l : List Ev} (h : l.Nodup) (x : Ev) :
    l.count x = if x ∈ l then 1 else 0 := by
  by_cases hx : x ∈ l
  · rw [if_pos hx]
    exact List.count_eq_one_of_mem h hx
  · rw [if_neg hx]
    exact List.count_eq_zero.mpr hx

theorem toDraw_nodup (q : ℤ) (res : List Ev) : (toDraw q res).Nodup :=
  (List.nodup_dedup _).filter _

theorem mem_toDraw {q : ℤ} {res : List Ev} {x : Ev} :
    x ∈ toDraw q res ↔
      (x = Ev.a ∨ x = Ev.d) ∧ x ∉ res ∧ x ∉ infeasibleAt q := by
  unfold toDraw
  rw [List.mem_filter]
  simp only [List.mem_dedup, List.mem_append, Bool.and_eq_true, decide_eq_true_eq]
  unfold feasibleAt feasibleAll infeasibleAll
  simp only [List.not_mem_nil, false_or, List.mem_cons, List.not_mem_nil, or_false,
    List.mem_singleton]
  constructor
  · rintro ⟨hmem, ⟨⟨hres, hinf⟩, hINIT⟩⟩
    exact ⟨hmem, hres, hinf⟩
  · rintro ⟨hmem, hres, hinf⟩
    refine ⟨hmem, ⟨⟨hres, hinf⟩, ?_⟩⟩
    rcases hmem with h | h <;> rw [h] <;> simp

/-! ### Projection lemmas for the step functions -/

/-- The queue-length transition `QUEUE += (event == 'a') - (event == 'd')`
of mm1.py line 55, as a function of the fired event type. -/
def newQueue (e : Ev) (q : ℤ) : ℤ :=
  q + (if e = Ev.a then 1 else 0) - (if e = Ev.d then 1 else 0)

theorem updateState_queue (m : Clock) (s : SimState) :
    (updateState m s).queue = newQueue m.2 s.queue := rfl

theorem updateState_queues (m : Clock) (s : SimState) :
    (updateState m s).queues = s.queues ++ [newQueue m.2 s.queue] := rfl

theorem updateState_heap (m : Clock) (s : SimState) :
    (updateState m s).heap = s.heap := rfl

theorem updateState_times (m : Clock) (s : SimState) :
    (updateState m s).times = s.times := rfl

theorem updateState_arrivals (m : Clock) (s : SimState) :
    (updateState m s).arrivals = s.arrivals := rfl

theorem updateState_departureCount (m : Clock) (s : SimState) :
    (updateState m s).departureCount = s.departureCount := rfl

theorem updateState_drawIdx (m : Clock) (s : SimState) :
    (updateState m s).drawIdx = s.drawIdx := rfl

theorem applyCounts_queue (m : Clock) (s : SimState) :
    (applyCounts m s).queue = s.queue := by
  unfold applyCounts
  split_ifs <;> rfl

theorem applyCounts_queues (m : Clock) (s : SimState) :
    (applyCounts m s).queues = s.queues := by
  unfold applyCounts
  split_ifs <;> rfl

theorem applyCounts_heap (m : Clock) (s : SimState) :
    (applyCounts m s).heap = s.heap := by
  unfold applyCounts
  split_ifs <;> rfl

theorem applyCounts_times (m : Clock) (s : SimState) :
    (applyCounts m s).times = s.times := by
  unfold applyCounts
  split_ifs <;> rfl

theorem applyCounts_arrivals (m : Clock) (s : SimState) :
    (applyCounts m s).arrivals = s.arrivals := by
  unfold applyCounts
  split_ifs <;> rfl

theorem applyCounts_drawIdx (m : Clock) (s : SimState) :
    (applyCounts m s).drawIdx = s.drawIdx := by
  unfold applyCounts
  split_ifs <;> rfl

theorem applyCounts_departureCount (m : Clock) (s : SimState) :
    (applyCounts m s).departureCount =
      s.departureCount + (if m.2 = Ev.d then 1 else 0) := by
  unfold applyCounts
  split_ifs with h1 h2 <;> simp [h1]

theorem uFE_heap (gen : ℕ → ℚ) (out : Clock) (s : SimState) :
    (updateFeasibleEvents gen out s).heap =
      shiftSurvivors out s.queue s.heap ++
        drawClocks gen s.drawIdx
          (toDraw s.queue (events (shiftSurvivors out s.queue s.heap))) := by
  unfold updateFeasibleEvents
  cases s.times with
  | nil => rfl
  | cons t ts => by_cases h : out.2 = Ev.a <;> simp [h]

theorem uFE_queue (gen : ℕ → ℚ) (out : Clock) (s : SimState) :
    (updateFeasibleEvents gen out s).queue = s.queue := by
  unfold updateFeasibleEvents
  cases s.times with
  | nil => rfl
  | cons t ts => by_cases h : out.2 = Ev.a <;> simp [h]

theorem uFE_queues (gen : ℕ → ℚ) (out : Clock) (s : SimState) :
    (updateFeasibleEvents gen out s).queues = s.queues := by
  unfold updateFeasibleEvents
  cases s.times with
  | nil => rfl
  | cons t ts => by_cases h : out.2 = Ev.a <;> simp [h]

theorem uFE_departureCount (gen : ℕ → ℚ) (out : Clock) (s : SimState) :
    (updateFeasibleEvents gen out s).departureCount = s.departureCount := by
  unfold updateFeasibleEvents
  cases s.times with
  | nil => rfl
  | cons t ts => by_cases h : out.2 = Ev.a <;> simp [h]

theorem uFE_times (gen : ℕ → ℚ) (out : Clock) (s : SimState) :
    (updateFeasibleEvents gen out s).times = s.times ++ [lastT s + out.1] := by
  unfold updateFeasibleEvents lastT
  cases s.times with
  | nil => simp
  | cons t ts => by_cases h : out.2 = Ev.a <;> simp [h]

theorem simStep_of_pop (gen : ℕ → ℚ) (s : SimState) {m : Clock} {rest : List Clock}
    (hpop : popMin s.heap = some (m, rest)) :
    simStep gen s =
      updateFeasibleEvents gen m (updateState m (applyCounts m { s with heap := rest })) := by
  unfold simStep
  rw [hpop]

theorem step_queue (gen : ℕ → ℚ) (s : SimState) {m : Clock} {rest : List Clock}
    (hpop : popMin s.heap = some (m, rest)) :
    (simStep gen s).queue = newQueue m.2 s.queue := by
  rw [simStep_of_pop gen s hpop, uFE_queue, updateState_queue, applyCounts_queue]

theorem step_heap (gen : ℕ → ℚ) (s : SimState) {m : Clock} {rest : List Clock}
    (hpop : popMin s.heap = some (m, rest)) :
    (simStep gen s).heap =
      shiftSurvivors m (newQueue m.2 s.queue) rest ++
        drawClocks gen s.drawIdx
          (toDraw (newQueue m.2 s.queue)
            (events (shiftSurvivors m (newQueue m.2 s.queue) rest))) := by
  rw [simStep_of_pop gen s hpop, uFE_heap]
  rw [updateState_queue, applyCounts_queue, updateState_heap, applyCounts_heap,
    updateState_drawIdx, applyCounts_drawIdx]

theorem step_times (gen : ℕ → ℚ) (s : SimState) {m : Clock} {rest : List Clock}
    (hpop : popMin s.heap = some (m, rest)) :
    (simStep gen s).times = s.times ++ [lastT s + m.1] := by
  rw [simStep_of_pop gen s hpop, uFE_times]
  unfold lastT
  rw [updateState_times, applyCounts_times]

theorem step_queues (gen : ℕ → ℚ) (s : SimState) {m : Clock} {rest : List Clock}
    (hpop : popMin s.heap = some (m, rest)) :
    (simStep gen s).queues = s.queues ++ [newQueue m.2 s.queue] := by
  rw [simStep_of_pop gen s hpop, uFE_queues, updateState_queues, applyCounts_queues,
    applyCounts_queue]

theorem step_departureCount (gen : ℕ → ℚ) (s : SimState) {m : Clock} {rest : List Clock}
    (hpop : popMin s.heap = some (m, rest)) :
    (simStep gen s).departureCount =
      s.departureCount + (if m.2 = Ev.d then 1 else 0) := by
  rw [simStep_of_pop gen s hpop, uFE_departureCount, updateState_departureCount,
    applyCounts_departureCount]

/-! ### The reachable-state invariant -/

theorem count_after (q' : ℤ) (rs : List Ev) (x : Ev) :
    (((rs.filter fun e => decide (e ∉ infeasibleAt q')) ++
        toDraw q' (rs.filter fun e => decide (e ∉ infeasibleAt q'))).count x)
      = if x ∈ infeasibleAt q' then 0
        else if 0 < rs.count x then rs.count x
        else if x = Ev.a ∨ x = Ev.d then 1 else 0 := by
  rw [List.count_append, count_filter_notMem, count_eq_ite_of_nodup (toDraw_nodup _ _)]
  by_cases hinf : x ∈ infeasibleAt q'
  · have hnd : x ∉ toDraw q' (rs.filter fun e => decide (e ∉ infeasibleAt q')) :=
      fun hmem => (mem_toDraw.mp hmem).2.2 hinf
    simp only [if_pos hinf, if_neg hnd]
  · by_cases hpos : 0 < rs.count x
    · have hmemR : x ∈ rs.filter fun e => decide (e ∉ infeasibleAt q') := by
        rw [List.mem_filter]
        exact ⟨List.count_pos_iff.mp hpos, by simpa using hinf⟩
      have hnd : x ∉ toDraw q' (rs.filter fun e => decide (e ∉ infeasibleAt q')) :=
        fun hmem => (mem_toDraw.mp hmem).2.1 hmemR
      simp only [if_neg hinf, if_pos hpos, if_neg hnd]
      omega
    · by_cases hx : x = Ev.a ∨ x = Ev.d
      · have hnm : x ∉ rs.filter fun e => decide (e ∉ infeasibleAt q') := by
          intro hmem
          exact hpos (List.count_pos_iff.mpr (List.mem_filter.mp hmem).1)
        have hmem : x ∈ toDraw q' (rs.filter fun e => decide (e ∉ infeasibleAt q')) :=
          mem_toDraw.mpr ⟨hx, hnm, hinf⟩
        have h0 : rs.count x = 0 := Nat.eq_zero_of_not_pos hpos
        simp only [if_neg hinf, if_neg hpos, if_pos hx, if_pos hmem, h0]
        norm_num
      · have hnd : x ∉ toDraw q' (rs.filter fun e => decide (e ∉ infeasibleAt q')) :=
          fun hmem => hx (mem_toDraw.mp hmem).1
        have h0 : rs.count x = 0 := Nat.eq_zero_of_not_pos hpos
        simp only [if_neg hinf, if_neg hpos, if_neg hx, if_neg hnd, h0]
        norm_num

/-- Invariant holding at every state the loop reaches after at least one
iteration: the queue length is non-negative (as is every recorded
length), the pending set holds exactly one arrival clock, a departure
clock exactly when the queue is non-empty, no `INIT` clock, and `times`
and `queues` have equal lengths. -/
def SimInv (s : SimState) : Prop :=
  0 ≤ s.queue ∧
  (events s.heap).count Ev.a = 1 ∧
  (events s.heap).count Ev.d = (if s.queue = 0 then 0 else 1) ∧
  (events s.heap).count Ev.INIT = 0 ∧
  s.times.length = s.queues.length ∧
  ∀ q ∈ s.queues, 0 ≤ q

theorem simInv_step (gen : ℕ → ℚ) (s : SimState) (h : SimInv s) : SimInv (simStep gen s) := by
  obtain ⟨hq, ha, hd, hI, hlen, hqs⟩ := h
  have hne : s.heap ≠ [] := by
    intro h0
    rw [h0] at ha
    simp [events] at ha
  obtain ⟨m, rest, hpop⟩ := popMin_isSome hne
  have hperm : List.Perm (events (m :: rest)) (events s.heap) :=
    (popMin_perm hpop).map Prod.snd
  have hcount : ∀ x : Ev, (events s.heap).count x
      = (events rest).count x + if x = m.2 then 1 else 0 := by
    intro x
    rw [← hperm.count_eq x, events_cons]
    by_cases hx : x = m.2
    · rw [hx, List.count_cons_self, if_pos rfl]
    · rw [List.count_cons_of_ne hx, if_neg hx]
      omega
  have hmI : m.2 ≠ Ev.INIT := by
    intro hm
    have hc := hcount Ev.INIT
    rw [hI, if_pos hm.symm] at hc
    omega
  have hheap : events (simStep gen s).heap
      = ((events rest).filter fun e => decide (e ∉ infeasibleAt (newQueue m.2 s.queue)))
        ++ toDraw (newQueue m.2 s.queue)
            ((events rest).filter fun e =>
              decide (e ∉ infeasibleAt (newQueue m.2 s.queue))) := by
    rw [step_heap gen s hpop, events_append, events_drawClocks, events_shiftSurvivors]
  have hcnew : ∀ x : Ev, (events (simStep gen s).heap).count x
      = if x ∈ infeasibleAt (newQueue m.2 s.queue) then 0
        else if 0 < (events rest).count x then (events rest).count x
        else if x = Ev.a ∨ x = Ev.d then 1 else 0 := by
    intro x
    rw [hheap, count_after]
  have hq' : (simStep gen s).queue = newQueue m.2 s.queue := step_queue gen s hpop
  have htimes' : (simStep gen s).times = s.times ++ [lastT s + m.1] := step_times gen s hpop
  have hqueues' : (simStep gen s).queues = s.queues ++ [newQueue m.2 s.queue] :=
    step_queues gen s hpop
  have hra : (events rest).count Ev.a + (if Ev.a = m.2 then 1 else 0) = 1 := by
    rw [← hcount Ev.a]
    exact ha
  have hrd : (events rest).count Ev.d + (if Ev.d = m.2 then 1 else 0)
      = if s.queue = 0 then 0 else 1 := by
    rw [← hcount Ev.d]
    exact hd
  have hrI : (events rest).count Ev.INIT + (if Ev.INIT = m.2 then 1 else 0) = 0 := by
    rw [← hcount Ev.INIT]
    exact hI
  have hlen' : (simStep gen s).times.length = (simStep gen s).queues.length := by
    rw [htimes', hqueues']
    simp [hlen]
  cases hm2 : m.2 with
  | INIT => exact absurd hm2 hmI
  | a =>
    rw [hm2] at hq' hcnew hqueues'
    simp only [hm2, reduceCtorEq, if_false, add_zero, if_true] at hra hrd hrI
    have hra0 : (events rest).count Ev.a = 0 := by omega
    have hnq : newQueue Ev.a s.queue = s.queue + 1 := by simp [newQueue]
    have hq'ne : newQueue Ev.a s.queue ≠ 0 := by omega
    have hninf : ∀ x : Ev, x ∉ infeasibleAt (newQueue Ev.a s.queue) :=
      fun x hx => hq'ne (mem_infeasibleAt.mp hx).1
    refine ⟨?_, ?_, ?_, ?_, hlen', ?_⟩
    · rw [hq']
      omega
    · rw [hcnew Ev.a, if_neg (hninf Ev.a), hra0]
      simp
    · rw [hcnew Ev.d, if_neg (hninf Ev.d), hq', if_neg hq'ne, hrd]
      by_cases hq0 : s.queue = 0 <;> simp [hq0]
    · rw [hcnew Ev.INIT, if_neg (hninf Ev.INIT)]
      have hrI0 : (events rest).count Ev.INIT = 0 := by omega
      simp [hrI0]
    · rw [hqueues']
      intro x hx
      rcases List.mem_append.mp hx with hx | hx
      · exact hqs x hx
      · simp at hx
        omega
  | d =>
    rw [hm2] at hq' hcnew hqueues'
    simp only [hm2, reduceCtorEq, if_false, add_zero, if_true] at hra hrd hrI
    have hqne : s.queue ≠ 0 := by
      intro h0
      rw [if_pos h0] at hrd
      omega
    have hrd0 : (events rest).count Ev.d = 0 := by
      rw [if_neg hqne] at hrd
      omega
    have hnq : newQueue Ev.d s.queue = s.queue - 1 := by simp [newQueue]
    have hninfa : Ev.a ∉ infeasibleAt (newQueue Ev.d s.queue) := by
      intro hx
      have := (mem_infeasibleAt.mp hx).2
      simp at this
    have hninfI : Ev.INIT ∉ infeasibleAt (newQueue Ev.d s.queue) := by
      intro hx
      have := (mem_infeasibleAt.mp hx).2
      simp at this
    refine ⟨?_, ?_, ?_, ?_, hlen', ?_⟩
    · rw [hq']
      omega
    · rw [hcnew Ev.a, if_neg hninfa, hra]
      simp
    · by_cases hz : newQueue Ev.d s.queue = 0
      · have hdin : Ev.d ∈ infeasibleAt (newQueue Ev.d s.queue) :=
          mem_infeasibleAt.mpr ⟨hz, rfl⟩
        rw [hcnew Ev.d, if_pos hdin, hq', if_pos hz]
      · have hdout : Ev.d ∉ infeasibleAt (newQueue Ev.d s.queue) :=
          fun hx => hz (mem_infeasibleAt.mp hx).1
        rw [hcnew Ev.d, if_neg hdout, hq', if_neg hz, hrd0]
        simp
    · rw [hcnew Ev.INIT, if_neg hninfI]
      have hrI0 : (events rest).count Ev.INIT = 0 := by omega
      simp [hrI0]
    · rw [hqueues']
      intro x hx
      rcases List.mem_append.mp hx with hx | hx
      · exact hqs x hx
      · simp at hx
        omega

theorem steps_one (gen : ℕ → ℚ) :
    steps gen 1 =
      { queue := 0, heap := [(gen 0, Ev.a)], times := [0], queues := [0], arrivals := [],
        departures := [], departureCount := 0, arrivalCountArray := [0], drawIdx := 1 } := by
  simp +decide [steps, simStep, popMin, clockLE, evRank, updateFeasibleEvents, applyCounts,
    updateState, initState, toDraw, drawClocks, events, infeasibleAt, infeasibleAll,
    feasibleAll, feasibleAt, List.dedup, List.filter, lastT, shiftSurvivors]

theorem simInv_one (gen : ℕ → ℚ) : SimInv (steps gen 1) := by
  rw [steps_one]
  refine ⟨le_refl 0, ?_, ?_, ?_, rfl, ?_⟩
  · show ([(gen 0, Ev.a)].map Prod.snd).count Ev.a = 1
    simp
  · show ([(gen 0, Ev.a)].map Prod.snd).count Ev.d = if (0 : ℤ) = 0 then 0 else 1
    simp
  · show ([(gen 0, Ev.a)].map Prod.snd).count Ev.INIT = 0
    simp
  · intro q hq
    simp at hq
    omega

theorem simInv_steps (gen : ℕ → ℚ) (k : ℕ) : SimInv (steps gen (k + 1)) := by
  induction k with
  | zero => exact simInv_one gen
  | succ n ih => exact simInv_step gen (steps gen (n + 1)) ih

theorem heap_ne_of_inv {s : SimState} (h : SimInv s) : s.heap ≠ [] := by
  intro h0
  have ha := h.2.1
  rw [h0] at ha
  simp [events] at ha

theorem steps_heap_ne (gen : ℕ → ℚ) (k : ℕ) : (steps gen k).heap ≠ [] := by
  cases k with
  | zero =>
    show initState.heap ≠ []
    simp [initState]
  | succ n => exact heap_ne_of_inv (simInv_steps gen n)

/-! ### Lifetime non-negativity, trace lengths, running time and counters -/

theorem heap_nonneg (gen : ℕ → ℚ) (hg : ∀ n, 0 ≤ gen n) (k : ℕ) :
    ∀ c ∈ (steps gen k).heap, 0 ≤ c.1 := by
  induction k with
  | zero =>
    intro c hc
    have : c = ((0 : ℚ), Ev.INIT) := by
      simpa [steps, initState] using hc
    rw [this]
  | succ n ih =>
    obtain ⟨m, rest, hpop⟩ := popMin_isSome (steps_heap_ne gen n)
    intro c hc
    have hstep : steps gen (n + 1) = simStep gen (steps gen n) := rfl
    rw [hstep, step_heap gen _ hpop] at hc
    rcases List.mem_append.mp hc with hc | hc
    · unfold shiftSurvivors at hc
      obtain ⟨c0, hc0, rfl⟩ := List.mem_map.mp hc
      have hc0r : c0 ∈ rest := (List.mem_filter.mp hc0).1
      have hc0mem : c0 ∈ (steps gen n).heap :=
        (popMin_perm hpop).subset (List.mem_cons_of_mem _ hc0r)
      have h1 : m.1 ≤ c0.1 := popMin_min hpop c0 hc0mem
      show 0 ≤ c0.1 - m.1
      have h2 : 0 ≤ c0.1 := ih c0 hc0mem
      linarith
    · obtain ⟨j, hj⟩ := mem_drawClocks_fst gen _ _ c hc
      rw [hj]
      exact hg j

theorem steps_lengths (gen : ℕ → ℚ) (k : ℕ) :
    (steps gen k).times.length = k ∧ (steps gen k).queues.length = k := by
  induction k with
  | zero => exact ⟨rfl, rfl⟩
  | succ n ih =>
    obtain ⟨m, rest, hpop⟩ := popMin_isSome (steps_heap_ne gen n)
    have hstep : steps gen (n + 1) = simStep gen (steps gen n) := rfl
    constructor
    · rw [hstep, step_times gen _ hpop]
      simp [ih.1]
    · rw [hstep, step_queues gen _ hpop]
      simp [ih.2]

theorem lastT_succ (gen : ℕ → ℚ) (k : ℕ) {m : Clock} {rest : List Clock}
    (hpop : popMin (steps gen k).heap = some (m, rest)) :
    lastT (steps gen (k + 1)) = lastT (steps gen k) + m.1 := by
  have hstep : steps gen (k + 1) = simStep gen (steps gen k) := rfl
  unfold lastT
  rw [hstep, step_times gen _ hpop, List.getLastD_concat]
  rfl

theorem steps_one_departureCount (gen : ℕ → ℚ) :
    (steps gen 1).departureCount = 0 := by
  rw [steps_one]

theorem departureCount_succ (gen : ℕ → ℚ) (k : ℕ) {m : Clock} {rest : List Clock}
    (hpop : popMin (steps gen k).heap = some (m, rest)) :
    (steps gen (k + 1)).departureCount =
      (steps gen k).departureCount + (if m.2 = Ev.d then 1 else 0) := by
  have hstep : steps gen (k + 1) = simStep gen (steps gen k) := rfl
  rw [hstep, step_departureCount gen _ hpop]

theorem departureCount_le_succ (gen : ℕ → ℚ) (k : ℕ) :
    (steps gen (k + 1)).departureCount ≤ (steps gen k).departureCount + 1 ∧
      (steps gen k).departureCount ≤ (steps gen (k + 1)).departureCount := by
  obtain ⟨m, rest, hpop⟩ := popMin_isSome (steps_heap_ne gen k)
  rw [departureCount_succ gen k hpop]
  split_ifs <;> omega

/-! ### Identification of the statistics computation with the indexed formula -/

theorem sumU_eq_specU : ∀ (ts : List ℚ) (qs : List ℤ), qs.length = ts.length →
    sumU ts qs = specU ts qs := by
  intro ts
  induction ts with
  | nil =>
    intro qs h
    simp [sumU, specU, diffs]
  | cons t1 ts' ih =>
    intro qs h
    cases ts' with
    | nil => simp [sumU, specU, diffs]
    | cons t2 rest =>
      cases qs with
      | nil => simp at h
      | cons q qs' =>
        have hlen : qs'.length = (t2 :: rest).length := by simpa using h
        have hne : qs' ≠ [] := by
          intro h0
          rw [h0] at hlen
          simp at hlen
        obtain ⟨q2, qs'', rfl⟩ : ∃ q2 qs'', qs' = q2 :: qs'' := by
          cases qs' with
          | nil => exact absurd rfl hne
          | cons a b => exact ⟨a, b, rfl⟩
        have hsum : sumU (t1 :: t2 :: rest) (q :: q2 :: qs'')
            = (q : ℚ) * (t2 - t1) + sumU (t2 :: rest) (q2 :: qs'') := by
          simp [sumU, diffs]
        rw [hsum, ih (q2 :: qs'') hlen]
        unfold specU
        simp only [List.length_cons]
        rw [show rest.length + 1 + 1 - 1 = rest.length + 1 from rfl,
            show rest.length + 1 - 1 = rest.length from rfl]
        rw [Finset.sum_range_succ']
        simp only [List.getD_cons_succ, List.getD_cons_zero]
        ring

/-! ### Concrete draw streams and traces used for instantiations -/

/-- A draw stream in which every drawn lifetime is `1`. -/
def oneStream : ℕ → ℚ := fun _ => 1

/-- A draw stream in which every drawn lifetime is `0` — the value
`newLifetime` produces when the uniform draw is exactly `0`. -/
def zeroStream : ℕ → ℚ := fun _ => 0

/-- Departure-count mode, stop after one departure. -/
def depCfg : Config := { lam := 1, mu := 2, limitSwitch := true, limitValue := 1 }

theorem oneStream_steps_one :
    steps oneStream 1 =
      { queue := 0, heap := [(1, Ev.a)], times := [0], queues := [0], arrivals := [],
        departures := [], departureCount := 0, arrivalCountArray := [0], drawIdx := 1 } := by
  rw [steps_one]
  rfl

theorem oneStream_steps_two :
    steps oneStream 2 =
      { queue := 1, heap := [(1, Ev.a), (1, Ev.d)], times := [0, 1], queues := [0, 1],
        arrivals := [1], departures := [], departureCount := 0,
        arrivalCountArray := [0, 1], drawIdx := 3 } := by
  have h : steps oneStream 2 = simStep oneStream (steps oneStream 1) := rfl
  rw [h, oneStream_steps_one]
  simp +decide [simStep, popMin, clockLE, evRank, updateFeasibleEvents, applyCounts,
    updateState, toDraw, drawClocks, events, infeasibleAt, infeasibleAll,
    feasibleAll, feasibleAt, List.dedup, List.filter, lastT, shiftSurvivors, oneStream]

theorem oneStream_steps_three :
    steps oneStream 3 =
      { queue := 2, heap := [(0, Ev.d), (1, Ev.a)], times := [0, 1, 2], queues := [0, 1, 2],
        arrivals := [1, 2], departures := [], departureCount := 0,
        arrivalCountArray := [0, 1, 1], drawIdx := 4 } := by
  have h : steps oneStream 3 = simStep oneStream (steps oneStream 2) := rfl
  rw [h, oneStream_steps_two]
  simp +decide [simStep, popMin, clockLE, evRank, updateFeasibleEvents, applyCounts,
    updateState, toDraw, drawClocks, events, infeasibleAt, infeasibleAll,
    feasibleAll, feasibleAt, List.dedup, List.filter, lastT, shiftSurvivors, oneStream]
  norm_num

theorem oneStream_steps_four :
    steps oneStream 4 =
      { queue := 1, heap := [(1, Ev.a), (1, Ev.d)], times := [0, 1, 2, 2],
        queues := [0, 1, 2, 1], arrivals := [1, 2], departures := [2], departureCount := 1,
        arrivalCountArray := [0, 1, 1, 0], drawIdx := 5 } := by
  have h : steps oneStream 4 = simStep oneStream (steps oneStream 3) := rfl
  rw [h, oneStream_steps_three]
  simp +decide [simStep, popMin, clockLE, evRank, updateFeasibleEvents, applyCounts,
    updateState, toDraw, drawClocks, events, infeasibleAt, infeasibleAll,
    feasibleAll, feasibleAt, List.dedup, List.filter, lastT, shiftSurvivors, oneStream]

theorem zeroStream_steps_two :
    steps zeroStream 2 =
      { queue := 1, heap := [(0, Ev.a), (0, Ev.d)], times := [0, 0], queues := [0, 1],
        arrivals := [0], departures := [], departureCount := 0,
        arrivalCountArray := [0, 1], drawIdx := 3 } := by
  have h0 : steps zeroStream 1 =
      { queue := 0, heap := [(0, Ev.a)], times := [0], queues := [0], arrivals := [],
        departures := [], departureCount := 0, arrivalCountArray := [0], drawIdx := 1 } := by
    rw [steps_one]
    rfl
  have h : steps zeroStream 2 = simStep zeroStream (steps zeroStream 1) := rfl
  rw [h, h0]
  simp +decide [simStep, popMin, clockLE, evRank, updateFeasibleEvents, applyCounts,
    updateState, toDraw, drawClocks, events, infeasibleAt, infeasibleAll,
    feasibleAll, feasibleAt, List.dedup, List.filter, lastT, shiftSurvivors, zeroStream]

theorem stopsAt_oneStream_depCfg :
    stopsAt oneStream depCfg 4 := by
  refine ⟨by omega, ?_, ?_⟩
  · rw [oneStream_steps_four]
    simp [stopCond, depCfg]
  · intro m hm h1
    interval_cases m
    · rw [oneStream_steps_one]
      simp [stopCond, depCfg]
    · rw [oneStream_steps_two]
      simp [stopCond, depCfg]
    · rw [oneStream_steps_three]
      simp [stopCond, depCfg]

/-! ### Helpers for the residual-lifetime claim -/

theorem mem_drawClocks_snd (gen : ℕ → ℚ) :
    ∀ (es : List Ev) (idx : ℕ) (c : Clock), c ∈ drawClocks gen idx es → c.2 ∈ es := by
  intro es
  induction es with
  | nil => intro idx c hc; simp [drawClocks] at hc
  | cons e es ih =>
    intro idx c hc
    rcases List.mem_cons.mp hc with hc | hc
    · rw [hc]
      exact List.mem_cons_self e es
    · exact List.mem_cons_of_mem e (ih (idx + 1) c hc)

theorem eq_fst_of_nodup_events :
    ∀ {l : List Clock}, (events l).Nodup →
      ∀ {t t' : ℚ} {e : Ev}, (t, e) ∈ l → (t', e) ∈ l → t = t' := by
  intro l
  induction l with
  | nil => intro _ t t' e h1; simp at h1
  | cons c cs ih =>
    intro hnd t t' e h1 h2
    rw [events_cons] at hnd
    have hhd : c.2 ∉ events cs := (List.nodup_cons.mp hnd).1
    have htl : (events cs).Nodup := (List.nodup_cons.mp hnd).2
    rcases List.mem_cons.mp h1 with h1 | h1 <;> rcases List.mem_cons.mp h2 with h2 | h2
    · rw [← h2] at h1
      exact congrArg Prod.fst h1
    · exfalso
      apply hhd
      rw [← h1]
      exact List.mem_map.mpr ⟨(t', e), h2, rfl⟩
    · exfalso
      apply hhd
      rw [← h2]
      exact List.mem_map.mpr ⟨(t, e), h1, rfl⟩
    · exact ih htl h1 h2

/-! ### The claims -/

/-- Claim C1: after every invocation of the feasibility-reconciliation step
inside the simulation loop — i.e. in every reachable state
`steps gen (k + 1)` — the pending-clock set contains exactly one arrival
clock, exactly one departure clock when the queue length is non-zero and
none when it is zero (the queue length is never negative in these states),
and no clock for the synthetic `INIT` type. -/
theorem spec_claim_C1 (gen : ℕ → ℚ) (k : ℕ) :
    (events (steps gen (k + 1)).heap).count Ev.a = 1 ∧
    (events (steps gen (k + 1)).heap).count Ev.d =
      (if (steps gen (k + 1)).queue = 0 then 0 else 1) ∧
    (events (steps gen (k + 1)).heap).count Ev.INIT = 0 :=
  ⟨(simInv_steps gen k).2.1, (simInv_steps gen k).2.2.1, (simInv_steps gen k).2.2.2.1⟩

/-- Claim C2: when a clock with lifetime `L = out.1` fires, every clock of
the old pending set whose event type stays feasible survives with its
lifetime decreased by exactly `L` and its event type unchanged, and it is
not redrawn: in the reconciled set, the unique clock carrying that event
type is precisely the shifted survivor. -/
theorem spec_claim_C2 (gen : ℕ → ℚ) (s : SimState) (out : Clock) (t : ℚ) (e : Ev)
    (hnd : (events s.heap).Nodup) (hmem : (t, e) ∈ s.heap)
    (hsurv : e ∉ infeasibleAt s.queue) :
    ∀ u : ℚ, ((u, e) ∈ (updateFeasibleEvents gen out s).heap ↔ u = t - out.1) := by
  intro u
  rw [uFE_heap]
  have hshift : (t - out.1, e) ∈ shiftSurvivors out s.queue s.heap := by
    unfold shiftSurvivors
    exact List.mem_map.mpr
      ⟨(t, e), List.mem_filter.mpr ⟨hmem, by simpa using hsurv⟩, rfl⟩
  constructor
  · intro hu
    rcases List.mem_append.mp hu with hu | hu
    · unfold shiftSurvivors at hu
      obtain ⟨⟨t0, e0⟩, hc0, heq⟩ := List.mem_map.mp hu
      have hc0h : (t0, e0) ∈ s.heap := (List.mem_filter.mp hc0).1
      obtain ⟨heq1, heq2⟩ := Prod.mk.injEq .. ▸ heq
      rw [← heq2] at hmem
      have ht0 : t0 = t := eq_fst_of_nodup_events hnd hc0h hmem
      rw [← heq1, ht0]
    · exfalso
      have he : e ∈ toDraw s.queue (events (shiftSurvivors out s.queue s.heap)) := by
        have := mem_drawClocks_snd gen _ _ (u, e) hu
        exact this
      have hres : e ∉ events (shiftSurvivors out s.queue s.heap) :=
        (mem_toDraw.mp he).2.1
      exact hres (List.mem_map.mpr ⟨(t - out.1, e), hshift, rfl⟩)
  · intro hu
    rw [hu]
    exact List.mem_append.mpr (Or.inl hshift)

/-- Concrete state used to instantiate claim C2: queue length 1, a single
pending arrival clock with residual lifetime 5. -/
def wState : SimState :=
  { queue := 1, heap := [(5, Ev.a)], times := [0], queues := [0], arrivals := [],
    departures := [], departureCount := 0, arrivalCountArray := [0], drawIdx := 0 }

theorem spec_claim_C2_witness :
    ((2 : ℚ), Ev.a) ∈ (updateFeasibleEvents oneStream ((3 : ℚ), Ev.d) wState).heap :=
  (spec_claim_C2 oneStream wState (3, Ev.d) 5 Ev.a
      (by simp [events, wState])
      (by simp [wState])
      (by norm_num [wState, infeasibleAt]) 2).mpr (by norm_num)

/-- Claim C5: at every iteration of the simulation loop the selection
succeeds (`popMin` returns a clock even when lifetimes tie — it is a total
function, so it neither loops nor crashes) and the removed clock has
minimum lifetime among all pending clocks. -/
theorem spec_claim_C5 (gen : ℕ → ℚ) (k : ℕ) :
    ∃ m rest, popMin (steps gen k).heap = some (m, rest) ∧
      m ∈ (steps gen k).heap ∧ ∀ c ∈ (steps gen k).heap, m.1 ≤ c.1 := by
  obtain ⟨m, rest, hpop⟩ := popMin_isSome (steps_heap_ne gen k)
  exact ⟨m, rest, hpop, popMin_mem hpop, popMin_min hpop⟩

theorem spec_claim_C5_witness :
    (popMin (steps oneStream 1).heap).isSome = true := by
  obtain ⟨m, rest, hpop, _, _⟩ := spec_claim_C5 oneStream 1
  rw [hpop]
  rfl

/-- Claim C6: the queue length is non-negative in every reachable state,
and so is every recorded queue length. -/
theorem spec_claim_C6 (gen : ℕ → ℚ) (k : ℕ) :
    0 ≤ (steps gen k).queue ∧ ∀ q ∈ (steps gen k).queues, 0 ≤ q := by
  cases k with
  | zero =>
    refine ⟨le_refl 0, ?_⟩
    intro q hq
    simp [steps, initState] at hq
  | succ n => exact ⟨(simInv_steps gen n).1, (simInv_steps gen n).2.2.2.2.2⟩

theorem spec_claim_C6_witness :
    0 ≤ (steps oneStream 2).queue ∧
      0 ≤ (steps oneStream 2).queues.getD 0 0 := by
  refine ⟨(spec_claim_C6 oneStream 2).1, ?_⟩
  refine (spec_claim_C6 oneStream 2).2 _ ?_
  rw [oneStream_steps_two]
  simp

/-- Claim C10: a freshly drawn lifetime `-1/r * log (1 - U)` is
non-negative whenever the uniform draw `U` lies in `[0, 1)` and the rate
`r` is positive; and, provided every drawn lifetime is non-negative, every
clock in the pending set has a non-negative lifetime in every reachable
state — in particular the clock selected by `popMin` never has a negative
lifetime, because subtracting the fired minimum from each survivor keeps
residuals non-negative. -/
theorem spec_claim_C10 (r U : ℝ) (gen : ℕ → ℚ) (k : ℕ)
    (hU0 : 0 ≤ U) (hU1 : U < 1) (hr : 0 < r) (hg : ∀ n, 0 ≤ gen n) :
    0 ≤ -(1 / r) * Real.log (1 - U) ∧
    (∀ c ∈ (steps gen k).heap, 0 ≤ c.1) ∧
    (∀ m rest, popMin (steps gen k).heap = some (m, rest) → 0 ≤ m.1) := by
  refine ⟨?_, heap_nonneg gen hg k, ?_⟩
  · have h1 : (0 : ℝ) < 1 - U := by linarith
    have h2 : Real.log (1 - U) ≤ 0 := Real.log_nonpos (le_of_lt h1) (by linarith)
    have h3 : (0 : ℝ) < 1 / r := by positivity
    nlinarith
  · intro m rest hpop
    exact heap_nonneg gen hg k m (popMin_mem hpop)

theorem spec_claim_C10_witness :
    0 ≤ -(1 / (1 : ℝ)) * Real.log (1 - 0) :=
  (spec_claim_C10 1 0 oneStream 0 (le_refl 0) (by norm_num) (by norm_num)
    (fun n => by norm_num [oneStream])).1

/-- Claim C3: on termination (at the stopping iteration `n` of the loop),
the statistics returned by `runSimulation` are computed from the recorded
sample path exactly as specified: the accumulated area equals
`Σ over i from 0 to n-2 of q_i * (t_{i+1} - t_i)` — the last recorded
queue length contributes nothing — and `L` and `S` divide that area by
the last recorded time and by the number of observed arrivals
respectively. -/
theorem spec_claim_C3 (gen : ℕ → ℚ) (cfg : Config) (n : ℕ) (_h : stopsAt gen cfg n) :
    sumU (steps gen n).times (steps gen n).queues
        = specU (steps gen n).times (steps gen n).queues ∧
    statsOf (steps gen n) =
      (specU (steps gen n).times (steps gen n).queues /
          (steps gen n).times.getLastD 0,
        specU (steps gen n).times (steps gen n).queues /
          ((steps gen n).arrivals.length : ℚ)) := by
  have hlen : (steps gen n).queues.length = (steps gen n).times.length := by
    rw [(steps_lengths gen n).1, (steps_lengths gen n).2]
  refine ⟨sumU_eq_specU _ _ hlen, ?_⟩
  simp only [statsOf, lastT]
  rw [sumU_eq_specU _ _ hlen]

theorem spec_claim_C3_witness :
    statsOf (steps oneStream 4) =
      (specU (steps oneStream 4).times (steps oneStream 4).queues /
          (steps oneStream 4).times.getLastD 0,
        specU (steps oneStream 4).times (steps oneStream 4).queues /
          ((steps oneStream 4).arrivals.length : ℚ)) :=
  (spec_claim_C3 oneStream depCfg 4 stopsAt_oneStream_depCfg).2

/-- Claim C4: if the loop stops after iteration `n` then, in
departure-count mode with bound `D ≥ 1`, the cumulative departure count
equals `D` at the stopping iteration and is strictly below `D` at every
earlier iteration; in elapsed-time mode with bound `T`, the time recorded
at the stopping iteration is the first recorded time `≥ T` (every earlier
iteration's running time is `< T`). -/
theorem spec_claim_C4 (gen : ℕ → ℚ) (cfg : Config) (n : ℕ) (h : stopsAt gen cfg n) :
    (cfg.limitSwitch = true → 1 ≤ cfg.limitValue →
        ((steps gen n).departureCount : ℤ) = cfg.limitValue ∧
        ∀ m, m < n → 1 ≤ m → ((steps gen m).departureCount : ℤ) < cfg.limitValue) ∧
    (cfg.limitSwitch = false →
        (cfg.limitValue : ℚ) ≤ lastT (steps gen n) ∧
        ∀ m, m < n → 1 ≤ m → lastT (steps gen m) < (cfg.limitValue : ℚ)) := by
  obtain ⟨hn1, hstop, hmin⟩ := h
  constructor
  · intro hsw hD
    unfold stopCond at hstop
    rw [hsw, if_pos rfl] at hstop
    simp only [decide_eq_true_eq] at hstop
    have hbefore : ∀ m, m < n → 1 ≤ m →
        ((steps gen m).departureCount : ℤ) < cfg.limitValue := by
      intro m hm h1
      have hc := hmin m hm h1
      unfold stopCond at hc
      rw [hsw, if_pos rfl] at hc
      simp only [decide_eq_false_iff_not, not_le] at hc
      exact hc
    refine ⟨?_, hbefore⟩
    cases n with
    | zero => omega
    | succ p =>
      cases p with
      | zero =>
        have h0 : (steps gen 1).departureCount = 0 := steps_one_departureCount gen
        rw [h0] at hstop ⊢
        omega
      | succ r =>
        have hprev : ((steps gen (r + 1)).departureCount : ℤ) < cfg.limitValue :=
          hbefore (r + 1) (by omega) (by omega)
        have hstep2 : (steps gen (r + 1 + 1)).departureCount ≤
            (steps gen (r + 1)).departureCount + 1 :=
          (departureCount_le_succ gen (r + 1)).1
        omega
  · intro hsw
    unfold stopCond at hstop
    rw [hsw] at hstop
    simp only [Bool.false_eq_true, if_false, decide_eq_true_eq] at hstop
    refine ⟨hstop, ?_⟩
    intro m hm h1
    have hc := hmin m hm h1
    unfold stopCond at hc
    rw [hsw] at hc
    simp only [Bool.false_eq_true, if_false, decide_eq_false_iff_not, not_le] at hc
    exact hc

theorem spec_claim_C4_witness :
    ((steps oneStream 4).departureCount : ℤ) = depCfg.limitValue :=
  ((spec_claim_C4 oneStream depCfg 4 stopsAt_oneStream_depCfg).1 rfl (by norm_num [depCfg])).1

/-- Elapsed-time mode with the degenerate bound `T = 0`, exactly what the
command line `LIMIT_SWITCH=0 LIMIT_VALUE=0` produces. -/
def degCfg : Config := { lam := 1, mu := 2, limitSwitch := false, limitValue := 0 }

/-- Claim C7 fails on the code (code bug): the argv handling of mm1.py
lines 22-32 performs no validation at all.  A negative arrival rate and a
non-positive stopping bound are parsed into a configuration unchanged
(never rejected, never corrected), and the simulation engine then starts
and runs with it — here it performs its first iteration and stops,
reaching the statistics phase. -/
theorem spec_claim_C7 :
    parseArgs (-1) 2 0 0 =
      { lam := -1, mu := 2, limitSwitch := false, limitValue := 0 } ∧
    (parseArgs (-1) 2 0 0).lam < 0 ∧
    stopsAt oneStream (parseArgs (-1) 2 0 0) 1 := by
  have hp : parseArgs (-1) 2 0 0 =
      { lam := -1, mu := 2, limitSwitch := false, limitValue := 0 } := by
    simp [parseArgs]
  refine ⟨hp, ?_, ?_⟩
  · rw [hp]
    norm_num
  · rw [hp]
    refine ⟨le_refl 1, ?_, ?_⟩
    · rw [oneStream_steps_one]
      simp [stopCond, lastT]
    · intro m hm h1
      omega

/-- Claim C8 fails on the code (code bug): with stopping bound `T = 0` the
run terminates after the very first (INIT) event with total elapsed time
`0` and no recorded arrival, and `runSimulation` still computes
`L = u / tarray[-1]` and `S = u / len(arrivals)` with both denominators
zero — a total computation (floating-point `inf`/`nan` in NumPy, `0` in
this rational model), not an explicit failure aborting the run. -/
theorem spec_claim_C8 :
    stopsAt oneStream degCfg 1 ∧
    lastT (steps oneStream 1) = 0 ∧
    (steps oneStream 1).arrivals = [] ∧
    statsOf (steps oneStream 1) = (0, 0) := by
  refine ⟨⟨le_refl 1, ?_, ?_⟩, ?_, ?_, ?_⟩
  · rw [oneStream_steps_one]
    simp [stopCond, degCfg, lastT]
  · intro m hm h1
    omega
  · rw [oneStream_steps_one]
    simp [lastT]
  · rw [oneStream_steps_one]
  · rw [oneStream_steps_one]
    simp [statsOf, sumU, diffs, lastT]

/-- Counterexample to claim C9 as stated: in the run whose drawn
lifetimes are all `0` (the value `newLifetime` returns whenever the
uniform draw is exactly `0`, which `np.random.rand()` can produce), the
second recorded time equals the first, so the recorded times are not
strictly increasing. -/
theorem spec_claim_C9_counterexample :
    ¬ List.Chain' (· < ·) (steps zeroStream 2).times := by
  rw [zeroStream_steps_two]
  intro h
  exact lt_irrefl (0 : ℚ) (List.chain'_cons.mp h).1

/-- Claim C9, amended: the recorded event times are strictly increasing
in every run in which each fired clock has a strictly positive lifetime —
which holds almost surely, since exponential draws are almost surely
positive and exact ties (which would leave a surviving clock with
residual `0`) have probability zero. -/
theorem spec_claim_C9 (gen : ℕ → ℚ) (k : ℕ)
    (hpos : ∀ i, i < k → 1 ≤ i → poppedPos gen i = true) :
    List.Chain' (· < ·) (steps gen k).times := by
  induction k with
  | zero => exact List.chain'_nil
  | succ n ih =>
    cases n with
    | zero =>
      rw [steps_one]
      exact List.chain'_singleton 0
    | succ p =>
      have ih' : List.Chain' (· < ·) (steps gen (p + 1)).times :=
        ih fun i h1 h2 => hpos i (Nat.lt_succ_of_lt h1) h2
      obtain ⟨m, rest, hpop⟩ := popMin_isSome (steps_heap_ne gen (p + 1))
      have hstep : steps gen (p + 1 + 1) = simStep gen (steps gen (p + 1)) := rfl
      rw [hstep, step_times gen _ hpop]
      have hm : 0 < m.1 := by
        have hp := hpos (p + 1) (by omega) (by omega)
        unfold poppedPos at hp
        rw [hpop] at hp
        simpa using hp
      refine List.Chain'.append ih' (List.chain'_singleton _) ?_
      intro x hx y hy
      have hy' : y = lastT (steps gen (p + 1)) + m.1 := by
        simp at hy
        exact hy.symm
      have hx' : x = lastT (steps gen (p + 1)) := by
        have := List.getLastD_eq_getLast? (0 : ℚ) (steps gen (p + 1)).times
        rw [Option.mem_def] at hx
        unfold lastT
        rw [this, hx]
        rfl
      rw [hx', hy']
      linarith

theorem spec_claim_C9_witness :
    List.Chain' (· < ·) (steps oneStream 3).times := by
  refine spec_claim_C9 oneStream 3 ?_
  intro i hi h1
  interval_cases i
  · unfold poppedPos
    rw [oneStream_steps_one]
    norm_num [popMin]
  · unfold poppedPos
    rw [oneStream_steps_two]
    norm_num [popMin, clockLE, evRank]
